import Mathlib

/-!
Shallow embedding of the vp6-to-ogv batch conversion driver of this
repository (`Tools/process/Main.py`, driven by `run.py`), together with
proofs about its discovery, path mapping, skip logic, failure isolation,
directory creation and process exit behaviour.

The filesystem the driver mutates is modelled explicitly (regular files
with abstract contents, plus directories); the external encoder is an
oracle mapping each input path to the observable behaviour of its
`subprocess.run` invocation.
-/

namespace VideoAssets

/-- A filesystem path, as the list of its components below the root. -/
abbrev FPath := List String

/-- Auxiliary for `pathPrefixes`: the nonempty extensions of `acc` along a
component list, shallowest first. -/
def initsFrom (acc : FPath) : List String → List FPath
  | [] => []
  | a :: as => (acc ++ [a]) :: initsFrom (acc ++ [a]) as

/-- All nonempty prefixes of a path, shallowest first, the path itself
included.  These are the directories `Path.mkdir(parents=True)` walks for
that path. -/
def pathPrefixes (p : FPath) : List FPath := initsFrom [] p

/-- Index of the last dot in a character list (accumulator version). -/
def lastDotAux : List Char → Nat → Option Nat → Option Nat
  | [], _, acc => acc
  | c :: cs, i, acc => lastDotAux cs (i + 1) (if c = '.' then some i else acc)

/-- The split position used by pathlib `PurePath.stem` / `.suffix`: the
index of the last dot, provided it is neither leading nor trailing. -/
def pySplitIdx (name : String) : Option Nat :=
  match lastDotAux name.toList 0 none with
  | some i => if 0 < i ∧ i < name.length - 1 then some i else none
  | none => none

/-- pathlib `stem`: the final component without its last suffix. -/
def pyStem (name : String) : String :=
  match pySplitIdx name with
  | some i => String.mk (name.toList.take i)
  | none => name

/-- pathlib `suffix`: the last extension of the name, `""` when absent. -/
def pySuffixStr (name : String) : String :=
  match pySplitIdx name with
  | some i => String.mk (name.toList.drop i)
  | none => ""

/-- pathlib `with_suffix`: replaces an existing suffix, else appends. -/
def pyWithSuffix (name suf : String) : String :=
  if pySuffixStr name = "" then name ++ suf else pyStem name ++ suf

/-- The output file name one loop iteration computes for a source name:
`(target_dir / rel.parent / file_path.stem).with_suffix(".ogv")`, final
component only. -/
def ogvName (name : String) : String := pyWithSuffix (pyStem name) ".ogv"

/-- The name normalisation fnmatch applies before matching: lowercasing on
a case-insensitive platform flavour (Windows), identity on POSIX. -/
def normcase (caseInsensitive : Bool) (s : String) : String :=
  if caseInsensitive then String.mk (s.toList.map Char.toLower) else s

/-- Whether `rglob`'s pattern `"*.vp6"` matches a final path component on
the given platform flavour. -/
def matchesVp6 (caseInsensitive : Bool) (name : String) : Bool :=
  decide ((normcase caseInsensitive name).toList.reverse.take 4 = ['6', 'p', 'v', '.'])

/-- One regular file below the source root: the directory components of
its relative path, and its final name component. -/
structure SrcEntry where
  relDirs : List String
  name : String
deriving DecidableEq

/-- `source_dir.rglob("*.vp6")` restricted to regular files: keeps each
file whose final name component matches the pattern, in traversal order. -/
def discover (caseInsensitive : Bool) (entries : List SrcEntry) : List SrcEntry :=
  entries.filter (fun e => matchesVp6 caseInsensitive e.name)

/-- The filesystem state the driver touches: regular files (with abstract
byte contents) and directories, keyed by path. -/
structure FS where
  files : List (FPath × Nat)
  dirs : List FPath
deriving DecidableEq

/-- There is a regular file at `p`. -/
def FS.isFile (fs : FS) (p : FPath) : Bool := fs.files.any (fun e => decide (e.1 = p))

/-- There is a directory at `p`. -/
def FS.isDir (fs : FS) (p : FPath) : Bool := fs.dirs.any (fun d => decide (d = p))

/-- `Path.exists()`: true for a regular file or a directory at the path. -/
def FS.entryExists (fs : FS) (p : FPath) : Bool := fs.isFile p || fs.isDir p

/-- The encoder child process writes the output file at `p`. -/
def FS.write (fs : FS) (p : FPath) (c : Nat) : FS := ⟨(p, c) :: fs.files, fs.dirs⟩

/-- A single directory is created at `p`. -/
def FS.addDir (fs : FS) (p : FPath) : FS := ⟨fs.files, p :: fs.dirs⟩

/-- `Path.mkdir(parents=True, exist_ok=True)` along a shallow-to-deep
chain of directories: a regular file anywhere in the chain makes the call
raise (no change at all), existing directories are kept, missing ones are
created. -/
def mkdirChain (fs : FS) : List FPath → Option FS
  | [] => some fs
  | d :: ds =>
    if fs.isFile d then none
    else if fs.isDir d then mkdirChain fs ds
    else mkdirChain (fs.addDir d) ds

/-- Well-formedness of a filesystem state, as every real filesystem
satisfies it: ancestors of files and directories are directories, and no
path is both a file and a directory. -/
def FS.wf (fs : FS) : Bool :=
  fs.files.all (fun e => (pathPrefixes e.1.dropLast).all fs.isDir) &&
  fs.dirs.all (fun d => (pathPrefixes d.dropLast).all fs.isDir) &&
  fs.files.all (fun e => !(fs.isDir e.1))

/-- The observable behaviour of `subprocess.run` on the encoder command
for one input: either the launch raises (e.g. `FileNotFoundError`), or
the child exits with a return code, having written the output file
(with some contents) or not. -/
inductive EncResult where
  | raise : EncResult
  | exit : Int → Option Nat → EncResult
deriving DecidableEq

/-- Per-job outcome of the loop body. -/
inductive Outcome where
  | converted : Outcome
  | skipped : Outcome
  | failed : Outcome
deriving DecidableEq

/-- What one loop iteration records: its outcome, and whether control
reached the encoder `subprocess.run` call. -/
structure Step where
  outcome : Outcome
  invoked : Bool
deriving DecidableEq

/-- Absolute target path of a job:
`target_dir / relative_path.parent / file_path.stem` with `.ogv` suffix. -/
def targetOf (targetRoot : FPath) (e : SrcEntry) : FPath :=
  targetRoot ++ e.relDirs ++ [ogvName e.name]

/-- Absolute source path of a job. -/
def srcOf (sourceRoot : FPath) (e : SrcEntry) : FPath :=
  sourceRoot ++ e.relDirs ++ [e.name]

/-- The effect of the child process on the target file: written with some
contents, or not written at all. -/
def writeOut (fs1 : FS) (tgt : FPath) : Option Nat → FS
  | some c => fs1.write tgt c
  | none => fs1

/-- The encoder invocation part of the loop body: run the child process,
record the written output if any, and classify the return code. -/
def encodeStep (enc : FPath → EncResult) (src tgt : FPath) (fs1 : FS) : FS × Step :=
  match enc src with
  | EncResult.raise => (fs1, ⟨Outcome.failed, true⟩)
  | EncResult.exit rc out =>
    (writeOut fs1 tgt out, ⟨if rc = 0 then Outcome.converted else Outcome.failed, true⟩)

/-- One iteration of the conversion loop of `main`: compute the target
path, create missing target directories, skip when the target path
already exists, otherwise invoke the encoder.  Exceptions anywhere in the
body are caught and recorded as a failure. -/
def processJob (enc : FPath → EncResult) (sourceRoot targetRoot : FPath)
    (fs : FS) (e : SrcEntry) : FS × Step :=
  match mkdirChain fs (pathPrefixes (targetOf targetRoot e).dropLast) with
  | none => (fs, ⟨Outcome.failed, false⟩)
  | some fs1 =>
    if fs1.entryExists (targetOf targetRoot e) then (fs1, ⟨Outcome.skipped, false⟩)
    else encodeStep enc (srcOf sourceRoot e) (targetOf targetRoot e) fs1

/-- The whole conversion loop: processes every discovered job in order,
threading the filesystem state, and collects one step record per job. -/
def runJobs (enc : FPath → EncResult) (sr tr : FPath) (fs : FS) :
    List SrcEntry → FS × List Step
  | [] => (fs, [])
  | e :: es =>
    ((runJobs enc sr tr (processJob enc sr tr fs e).1 es).1,
      (processJob enc sr tr fs e).2 :: (runJobs enc sr tr (processJob enc sr tr fs e).1 es).2)

/-- Final filesystem state of the loop. -/
def runFS (enc : FPath → EncResult) (sr tr : FPath) (fs : FS) (js : List SrcEntry) : FS :=
  (runJobs enc sr tr fs js).1

/-- Step records of the loop. -/
def runSteps (enc : FPath → EncResult) (sr tr : FPath) (fs : FS) (js : List SrcEntry) :
    List Step :=
  (runJobs enc sr tr fs js).2

/-- The step record job `k` produces, computed from the filesystem state
reached after the jobs before it. -/
def stepView (enc : FPath → EncResult) (sr tr : FPath) (fs : FS) (js : List SrcEntry)
    (k : Nat) : Option Step :=
  (js.get? k).map fun e => (processJob enc sr tr (runFS enc sr tr fs (js.take k)) e).2

/-- The filesystem facts `find_ffmpeg` consults for the configured encoder
path string. -/
structure FFEnv where
  isAbsolute : Bool
  absIsFile : Bool
  projRelIsFile : Bool
  modRelIsFile : Bool
  whichOk : Bool
deriving DecidableEq

/-- Which resolution strategy produced the encoder command. -/
inductive Strategy where
  | absolute : Strategy
  | projectRel : Strategy
  | moduleRel : Strategy
  | pathLookup : Strategy
deriving DecidableEq

/-- `find_ffmpeg`: tries absolute path, project-relative, module-relative,
then a PATH lookup via where/which.  `Except.error ()` models the
`NameError` raised by the two calls to the undefined `print_warning`
(once when an absolute configured path is not a file, once when every
strategy has failed); on those code paths the function never returns. -/
def find_ffmpeg (env : FFEnv) : Except Unit (Option Strategy) :=
  if env.isAbsolute then
    if env.absIsFile then Except.ok (some Strategy.absolute)
    else Except.error ()
  else if env.projRelIsFile then Except.ok (some Strategy.projectRel)
  else if env.modRelIsFile then Except.ok (some Strategy.moduleRel)
  else if env.whichOk then Except.ok (some Strategy.pathLookup)
  else Except.error ()

/-- How control leaves `Main.main`. -/
inductive ExitKind where
  | sysExit : Nat → ExitKind
  | raised : ExitKind
  | normal : ExitKind
deriving DecidableEq

/-- Everything observable about one invocation of `Main.main`. -/
structure MainRun where
  exitKind : ExitKind
  fs : FS
  steps : List Step
  printedNoFiles : Bool
  printedSummary : Bool
deriving DecidableEq

/-- `Main.main`, after configuration keys resolved: checks that the source
directory is a directory, resolves the encoder, discovers the `.vp6`
files, returns early when none are found, and otherwise runs the loop and
prints the final summary. -/
def mainDriver (ffenv : FFEnv) (sourceIsDir caseInsensitive : Bool)
    (entries : List SrcEntry) (enc : FPath → EncResult) (sr tr : FPath)
    (fs0 : FS) : MainRun :=
  if sourceIsDir = false then ⟨ExitKind.sysExit 1, fs0, [], false, false⟩
  else
    match find_ffmpeg ffenv with
    | Except.error _ => ⟨ExitKind.raised, fs0, [], false, false⟩
    | Except.ok none => ⟨ExitKind.sysExit 1, fs0, [], false, false⟩
    | Except.ok (some _) =>
      if (discover caseInsensitive entries).isEmpty then
        ⟨ExitKind.normal, fs0, [], true, false⟩
      else
        ⟨ExitKind.normal, (runJobs enc sr tr fs0 (discover caseInsensitive entries)).1,
          (runJobs enc sr tr fs0 (discover caseInsensitive entries)).2, false, true⟩

/-- The process exit status produced by `run.py` around `Main.main`:
`run_video_processing` wraps the call in `try/except Exception`, so a
`SystemExit` (raised by `sys.exit`) propagates and becomes the process
status, any other exception is caught and the script finishes normally
(status 0), and a normal return also gives status 0. -/
def processExit : ExitKind → Nat
  | ExitKind.sysExit c => c
  | ExitKind.raised => 0
  | ExitKind.normal => 0

end VideoAssets

namespace VideoAssets

theorem files_write (fs : FS) (q : FPath) (c : Nat) :
    (fs.write q c).files = (q, c) :: fs.files := rfl

theorem dirs_write (fs : FS) (q : FPath) (c : Nat) : (fs.write q c).dirs = fs.dirs := rfl

theorem isFile_write (fs : FS) (q : FPath) (c : Nat) (p : FPath) :
    (fs.write q c).isFile p = (decide (q = p) || fs.isFile p) := by
  simp [FS.write, FS.isFile]

theorem isDir_write (fs : FS) (q : FPath) (c : Nat) (p : FPath) :
    (fs.write q c).isDir p = fs.isDir p := rfl

theorem isFile_addDir (fs : FS) (q p : FPath) : (fs.addDir q).isFile p = fs.isFile p := rfl

theorem isDir_addDir (fs : FS) (q p : FPath) :
    (fs.addDir q).isDir p = (decide (q = p) || fs.isDir p) := by
  simp [FS.addDir, FS.isDir]

theorem isFile_eq_true_iff (fs : FS) (p : FPath) :
    fs.isFile p = true ↔ ∃ e ∈ fs.files, e.1 = p := by
  simp [FS.isFile, List.any_eq_true]

theorem isDir_eq_true_iff (fs : FS) (p : FPath) : fs.isDir p = true ↔ p ∈ fs.dirs := by
  simp [FS.isDir, List.any_eq_true]

theorem mkdirChain_files (ds : List FPath) : ∀ fs fs' : FS,
    mkdirChain fs ds = some fs' → fs'.files = fs.files := by
  induction ds with
  | nil => intro fs fs' h; simp [mkdirChain] at h; rw [← h]
  | cons d ds ih =>
    intro fs fs' h
    by_cases h1 : fs.isFile d
    · simp [mkdirChain, h1] at h
    · by_cases h2 : fs.isDir d
      · simp only [mkdirChain, h1, h2, if_true, if_false, Bool.false_eq_true] at h
        exact ih fs fs' h
      · simp only [mkdirChain, h1, h2, if_true, if_false, Bool.false_eq_true] at h
        simpa [FS.addDir] using ih (fs.addDir d) fs' h

theorem mkdirChain_isFile (ds : List FPath) (fs fs' : FS)
    (h : mkdirChain fs ds = some fs') (p : FPath) : fs'.isFile p = fs.isFile p := by
  simp [FS.isFile, mkdirChain_files ds fs fs' h]

theorem mkdirChain_eq_none_iff (ds : List FPath) : ∀ fs : FS,
    mkdirChain fs ds = none ↔ ∃ d ∈ ds, fs.isFile d = true := by
  induction ds with
  | nil => intro fs; simp [mkdirChain]
  | cons d ds ih =>
    intro fs
    by_cases h1 : fs.isFile d
    · simp [mkdirChain, h1]
    · by_cases h2 : fs.isDir d
      · simp only [mkdirChain, h1, h2, if_true, if_false, Bool.false_eq_true]
        rw [ih fs]
        simp [h1]
      · simp only [mkdirChain, h1, h2, if_true, if_false, Bool.false_eq_true]
        rw [ih (fs.addDir d)]
        simp [isFile_addDir, h1]

theorem mkdirChain_isDir_mono (ds : List FPath) : ∀ fs fs' : FS,
    mkdirChain fs ds = some fs' → ∀ p, fs.isDir p = true → fs'.isDir p = true := by
  induction ds with
  | nil => intro fs fs' h p hp; simp [mkdirChain] at h; rw [← h]; exact hp
  | cons d ds ih =>
    intro fs fs' h p hp
    by_cases h1 : fs.isFile d
    · simp [mkdirChain, h1] at h
    · by_cases h2 : fs.isDir d
      · simp only [mkdirChain, h1, h2, if_true, if_false, Bool.false_eq_true] at h
        exact ih fs fs' h p hp
      · simp only [mkdirChain, h1, h2, if_true, if_false, Bool.false_eq_true] at h
        exact ih (fs.addDir d) fs' h p (by simp [isDir_addDir, hp])

theorem mkdirChain_isDir_of_mem (ds : List FPath) : ∀ fs fs' : FS,
    mkdirChain fs ds = some fs' → ∀ d ∈ ds, fs'.isDir d = true := by
  induction ds with
  | nil => intro fs fs' h d hd; cases hd
  | cons a ds ih =>
    intro fs fs' h e he
    by_cases h1 : fs.isFile a
    · simp [mkdirChain, h1] at h
    · by_cases h2 : fs.isDir a
      · simp only [mkdirChain, h1, h2, if_true, if_false, Bool.false_eq_true] at h
        rcases List.mem_cons.mp he with he1 | he'
        · subst he1; exact mkdirChain_isDir_mono ds fs fs' h e h2
        · exact ih fs fs' h e he'
      · simp only [mkdirChain, h1, h2, if_true, if_false, Bool.false_eq_true] at h
        rcases List.mem_cons.mp he with he1 | he'
        · subst he1
          exact mkdirChain_isDir_mono ds (fs.addDir e) fs' h e (by simp [isDir_addDir])
        · exact ih (fs.addDir a) fs' h e he'

theorem mkdirChain_isDir_src (ds : List FPath) : ∀ fs fs' : FS,
    mkdirChain fs ds = some fs' → ∀ p, fs'.isDir p = true →
    fs.isDir p = true ∨ p ∈ ds := by
  induction ds with
  | nil => intro fs fs' h p hp; simp [mkdirChain] at h; rw [← h] at hp; exact Or.inl hp
  | cons a ds ih =>
    intro fs fs' h p hp
    by_cases h1 : fs.isFile a
    · simp [mkdirChain, h1] at h
    · by_cases h2 : fs.isDir a
      · simp only [mkdirChain, h1, h2, if_true, if_false, Bool.false_eq_true] at h
        rcases ih fs fs' h p hp with hh | hh
        · exact Or.inl hh
        · exact Or.inr (List.mem_cons_of_mem a hh)
      · simp only [mkdirChain, h1, h2, if_true, if_false, Bool.false_eq_true] at h
        rcases ih (fs.addDir a) fs' h p hp with hh | hh
        · rw [isDir_addDir] at hh
          rcases Bool.or_eq_true_iff.mp hh with hh' | hh'
          · exact Or.inr (by simp [← of_decide_eq_true hh'])
          · exact Or.inl hh'
        · exact Or.inr (List.mem_cons_of_mem a hh)

theorem mkdirChain_noop (ds : List FPath) : ∀ fs : FS,
    (∀ d ∈ ds, fs.isDir d = true ∧ fs.isFile d = false) →
    mkdirChain fs ds = some fs := by
  induction ds with
  | nil => intro fs _; rfl
  | cons d ds ih =>
    intro fs hall
    have hd := hall d (List.mem_cons_self d ds)
    simp only [mkdirChain, hd.1, hd.2, if_true, if_false, Bool.false_eq_true]
    exact ih fs (fun e he => hall e (List.mem_cons_of_mem d he))

theorem initsFrom_concat (l : List String) : ∀ (acc : FPath) (a : String),
    initsFrom acc (l ++ [a]) = initsFrom acc l ++ [acc ++ l ++ [a]] := by
  induction l with
  | nil => intro acc a; simp [initsFrom]
  | cons b bs ih =>
    intro acc a
    show initsFrom acc ((b :: bs) ++ [a]) = _
    rw [List.cons_append]
    show (acc ++ [b]) :: initsFrom (acc ++ [b]) (bs ++ [a]) = _
    rw [ih (acc ++ [b]) a]
    simp [initsFrom, List.append_assoc]

theorem pathPrefixes_concat (p : FPath) (a : String) :
    pathPrefixes (p ++ [a]) = pathPrefixes p ++ [p ++ [a]] := by
  simpa [pathPrefixes] using initsFrom_concat p [] a

theorem mem_initsFrom (l : List String) : ∀ acc d : FPath,
    d ∈ initsFrom acc l ↔ ∃ t, t ≠ [] ∧ (∃ r, t ++ r = l) ∧ d = acc ++ t := by
  induction l with
  | nil =>
    intro acc d
    constructor
    · intro h; cases h
    · rintro ⟨t, ht, ⟨r, hr⟩, rfl⟩
      exact absurd (List.append_eq_nil.mp hr).1 ht
  | cons a as ih =>
    intro acc d
    simp only [initsFrom, List.mem_cons, ih (acc ++ [a])]
    constructor
    · rintro (rfl | ⟨t, ht, ⟨r, hr⟩, rfl⟩)
      · exact ⟨[a], by simp, ⟨as, rfl⟩, rfl⟩
      · exact ⟨a :: t, by simp, ⟨r, by simp [hr]⟩, by simp⟩
    · rintro ⟨t, ht, ⟨r, hr⟩, rfl⟩
      cases t with
      | nil => exact absurd rfl ht
      | cons b t2 =>
        have hb : b = a := by
          have := congrArg (fun l => l.head?) hr
          simpa using this
        subst hb
        have ht2 : t2 ++ r = as := by
          have := congrArg List.tail hr
          simpa using this
        cases t2 with
        | nil => exact Or.inl (by simp)
        | cons c t3 =>
          exact Or.inr ⟨c :: t3, by simp, ⟨r, ht2⟩, by simp⟩

theorem mem_pathPrefixes (p d : FPath) :
    d ∈ pathPrefixes p ↔ d ≠ [] ∧ ∃ r, d ++ r = p := by
  simp only [pathPrefixes, mem_initsFrom, List.nil_append]
  constructor
  · rintro ⟨t, ht, hr, rfl⟩; exact ⟨ht, hr⟩
  · rintro ⟨hd, hr⟩; exact ⟨d, hd, hr, rfl⟩

theorem length_le_of_mem_pathPrefixes {p d : FPath} (h : d ∈ pathPrefixes p) :
    d.length ≤ p.length := by
  rcases (mem_pathPrefixes p d).mp h with ⟨-, r, hr⟩
  calc d.length ≤ d.length + r.length := Nat.le_add_right _ _
    _ = (d ++ r).length := (List.length_append d r).symm
    _ = p.length := by rw [hr]

theorem ne_of_mem_pathPrefixes_dropLast {tgt d : FPath} (hne : tgt ≠ [])
    (h : d ∈ pathPrefixes tgt.dropLast) : d ≠ tgt := by
  have h1 := length_le_of_mem_pathPrefixes h
  rw [List.length_dropLast] at h1
  have h2 : 0 < tgt.length := List.length_pos.mpr hne
  intro he
  rw [he] at h1
  omega

theorem pathPrefixes_dropLast_subset {q d : FPath} (h : d ∈ pathPrefixes q) :
    ∀ e ∈ pathPrefixes d.dropLast, e ∈ pathPrefixes q := by
  intro e he
  rcases (mem_pathPrefixes q d).mp h with ⟨hd, r2, hr2⟩
  rcases (mem_pathPrefixes d.dropLast e).mp he with ⟨hee, r1, hr1⟩
  refine (mem_pathPrefixes q e).mpr ⟨hee, r1 ++ [d.getLast hd] ++ r2, ?_⟩
  have hsplit : d.dropLast ++ [d.getLast hd] = d := List.dropLast_append_getLast hd
  calc e ++ (r1 ++ [d.getLast hd] ++ r2)
      = ((e ++ r1) ++ [d.getLast hd]) ++ r2 := by simp [List.append_assoc]
    _ = (d.dropLast ++ [d.getLast hd]) ++ r2 := by rw [hr1]
    _ = d ++ r2 := by rw [hsplit]
    _ = q := hr2

theorem wf_parts {fs : FS} (hwf : fs.wf = true) :
    (∀ e ∈ fs.files, ∀ d ∈ pathPrefixes e.1.dropLast, fs.isDir d = true) ∧
    (∀ p ∈ fs.dirs, ∀ d ∈ pathPrefixes p.dropLast, fs.isDir d = true) ∧
    (∀ e ∈ fs.files, fs.isDir e.1 = false) := by
  simp only [FS.wf, Bool.and_eq_true, List.all_eq_true] at hwf
  refine ⟨fun e he d hd => hwf.1.1 e he d hd, fun p hp d hd => hwf.1.2 p hp d hd, ?_⟩
  intro e he
  have := hwf.2 e he
  simpa using this

theorem wf_file_prefix {fs : FS} (hwf : fs.wf = true) {p : FPath}
    (hf : fs.isFile p = true) : ∀ d ∈ pathPrefixes p.dropLast, fs.isDir d = true := by
  rcases (isFile_eq_true_iff fs p).mp hf with ⟨e, he, rfl⟩
  exact (wf_parts hwf).1 e he

theorem wf_dir_prefix {fs : FS} (hwf : fs.wf = true) {p : FPath}
    (hd : fs.isDir p = true) : ∀ d ∈ pathPrefixes p.dropLast, fs.isDir d = true := by
  have hp := (isDir_eq_true_iff fs p).mp hd
  exact (wf_parts hwf).2.1 p hp

theorem wf_not_both {fs : FS} (hwf : fs.wf = true) {p : FPath}
    (hf : fs.isFile p = true) (hd : fs.isDir p = true) : False := by
  rcases (isFile_eq_true_iff fs p).mp hf with ⟨e, he, rfl⟩
  have := (wf_parts hwf).2.2 e he
  rw [this] at hd
  cases hd

end VideoAssets

namespace VideoAssets

theorem targetOf_ne_nil (tr : FPath) (e : SrcEntry) : targetOf tr e ≠ [] := by
  simp [targetOf]

theorem entryExists_eq_true_iff (fs : FS) (p : FPath) :
    fs.entryExists p = true ↔ fs.isFile p = true ∨ fs.isDir p = true := by
  simp [FS.entryExists]

theorem processJob_isFile_mono (enc : FPath → EncResult) (sr tr : FPath) (fs : FS)
    (e : SrcEntry) (p : FPath) (h : fs.isFile p = true) :
    (processJob enc sr tr fs e).1.isFile p = true := by
  rcases hmk : mkdirChain fs (pathPrefixes (targetOf tr e).dropLast) with _ | fs1
  · simp only [processJob, hmk]; exact h
  · have hf1 : fs1.isFile p = true := by
      rw [mkdirChain_isFile _ _ _ hmk]; exact h
    by_cases hex : fs1.entryExists (targetOf tr e) = true
    · simp only [processJob, hmk, if_pos hex]; exact hf1
    · simp only [processJob, hmk, if_neg hex]
      rcases henc : enc (srcOf sr e) with _ | ⟨rc, out⟩
      · simp only [encodeStep, henc]; exact hf1
      · rcases out with _ | c
        · simp only [encodeStep, henc, writeOut]; exact hf1
        · simp only [encodeStep, henc, writeOut]
          simp [isFile_write, hf1]

theorem processJob_isDir_mono (enc : FPath → EncResult) (sr tr : FPath) (fs : FS)
    (e : SrcEntry) (p : FPath) (h : fs.isDir p = true) :
    (processJob enc sr tr fs e).1.isDir p = true := by
  rcases hmk : mkdirChain fs (pathPrefixes (targetOf tr e).dropLast) with _ | fs1
  · simp only [processJob, hmk]; exact h
  · have hd1 : fs1.isDir p = true :=
      mkdirChain_isDir_mono _ _ _ hmk p h
    by_cases hex : fs1.entryExists (targetOf tr e) = true
    · simp only [processJob, hmk, if_pos hex]; exact hd1
    · simp only [processJob, hmk, if_neg hex]
      rcases henc : enc (srcOf sr e) with _ | ⟨rc, out⟩
      · simp only [encodeStep, henc]; exact hd1
      · rcases out with _ | c
        · simp only [encodeStep, henc, writeOut]; exact hd1
        · simp only [encodeStep, henc, writeOut]
          simpa [isDir_write] using hd1

theorem processJob_isFile_guard (enc : FPath → EncResult) (sr tr : FPath) (fs : FS)
    (e : SrcEntry) (p : FPath) (hd : fs.isDir p = true)
    (h : (processJob enc sr tr fs e).1.isFile p = true) : fs.isFile p = true := by
  rcases hmk : mkdirChain fs (pathPrefixes (targetOf tr e).dropLast) with _ | fs1
  · simp only [processJob, hmk] at h; exact h
  · have hfs1 : ∀ q, fs1.isFile q = fs.isFile q := mkdirChain_isFile _ _ _ hmk
    by_cases hex : fs1.entryExists (targetOf tr e) = true
    · simp only [processJob, hmk, if_pos hex] at h
      rw [hfs1 p] at h; exact h
    · simp only [processJob, hmk, if_neg hex] at h
      rcases henc : enc (srcOf sr e) with _ | ⟨rc, out⟩
      · simp only [encodeStep, henc] at h; rw [hfs1 p] at h; exact h
      · rcases out with _ | c
        · simp only [encodeStep, henc, writeOut] at h; rw [hfs1 p] at h; exact h
        · simp only [encodeStep, henc, writeOut, isFile_write] at h
          rcases Bool.or_eq_true_iff.mp h with h' | h'
          · exfalso
            have htp : targetOf tr e = p := of_decide_eq_true h'
            have hd1 : fs1.isDir (targetOf tr e) = true := by
              rw [htp]; exact mkdirChain_isDir_mono _ _ _ hmk p hd
            exact hex ((entryExists_eq_true_iff fs1 _).mpr (Or.inr hd1))
          · rw [hfs1 p] at h'; exact h'

theorem wf_addDir {fs : FS} (p : FPath) (hwf : fs.wf = true)
    (hpre : ∀ d ∈ pathPrefixes p.dropLast, fs.isDir d = true)
    (hnf : fs.isFile p = false) : (fs.addDir p).wf = true := by
  have hw := wf_parts hwf
  simp only [FS.wf, Bool.and_eq_true, List.all_eq_true]
  refine ⟨⟨?_, ?_⟩, ?_⟩
  · intro e he d hd
    simp [isDir_addDir, hw.1 e he d hd]
  · intro q hq
    rcases List.mem_cons.mp hq with hq1 | hq'
    · subst hq1
      intro d hd
      simp [isDir_addDir, hpre d hd]
    · intro d hd
      simp [isDir_addDir, hw.2.1 q hq' d hd]
  · intro e he
    have h1 : fs.isDir e.1 = false := hw.2.2 e he
    have h2 : p ≠ e.1 := by
      intro hpe
      have : fs.isFile p = true := by
        rw [hpe]
        exact (isFile_eq_true_iff fs e.1).mpr ⟨e, he, rfl⟩
      rw [this] at hnf; cases hnf
    simp [isDir_addDir, h1, h2]

theorem wf_write {fs : FS} {tgt : FPath} (c : Nat) (hwf : fs.wf = true)
    (hpre : ∀ d ∈ pathPrefixes tgt.dropLast, fs.isDir d = true)
    (hnd : fs.isDir tgt = false) : (fs.write tgt c).wf = true := by
  have hw := wf_parts hwf
  simp only [FS.wf, Bool.and_eq_true, List.all_eq_true, files_write, dirs_write]
  refine ⟨⟨?_, ?_⟩, ?_⟩
  · intro e he d hd
    rcases List.mem_cons.mp he with he1 | he'
    · subst he1
      simpa [isDir_write] using hpre d hd
    · simpa [isDir_write] using hw.1 e he' d hd
  · intro q hq d hd
    simpa [isDir_write] using hw.2.1 q hq d hd
  · intro e he
    rcases List.mem_cons.mp he with he1 | he'
    · subst he1; simpa [isDir_write] using hnd
    · simpa [isDir_write] using hw.2.2 e he'

theorem mkdirChain_append (l1 l2 : List FPath) : ∀ fs : FS,
    mkdirChain fs (l1 ++ l2) = (mkdirChain fs l1).bind (fun f => mkdirChain f l2) := by
  induction l1 with
  | nil => intro fs; simp [mkdirChain]
  | cons a ds ih =>
    intro fs
    by_cases h1 : fs.isFile a
    · simp [mkdirChain, h1]
    · by_cases h2 : fs.isDir a
      · simp only [List.cons_append, mkdirChain, h1, h2, if_true, if_false,
          Bool.false_eq_true]
        exact ih fs
      · simp only [List.cons_append, mkdirChain, h1, h2, if_true, if_false,
          Bool.false_eq_true]
        exact ih (fs.addDir a)

theorem wf_mkdirChainPrefixes (q : FPath) : ∀ fs fs' : FS, fs.wf = true →
    mkdirChain fs (pathPrefixes q) = some fs' → fs'.wf = true := by
  induction q using List.reverseRecOn with
  | nil =>
    intro fs fs' hwf h
    simp [pathPrefixes, initsFrom, mkdirChain] at h
    rw [← h]; exact hwf
  | append_singleton qs a ih =>
    intro fs fs' hwf h
    rw [pathPrefixes_concat, mkdirChain_append] at h
    rcases Option.bind_eq_some.mp h with ⟨fm, hfm, hlast⟩
    have hwfm : fm.wf = true := ih fs fm hwf hfm
    have hdirs : ∀ d ∈ pathPrefixes qs, fm.isDir d = true :=
      mkdirChain_isDir_of_mem _ _ _ hfm
    by_cases h1 : fm.isFile (qs ++ [a])
    · simp [mkdirChain, h1] at hlast
    · by_cases h2 : fm.isDir (qs ++ [a])
      · simp only [mkdirChain, h1, h2, if_true, if_false, Bool.false_eq_true] at hlast
        rw [← Option.some_inj.mp hlast]; exact hwfm
      · simp only [mkdirChain, h1, h2, if_true, if_false, Bool.false_eq_true] at hlast
        rw [← Option.some_inj.mp hlast]
        refine wf_addDir _ hwfm ?_ (by simpa using h1)
        intro d hd
        rw [List.dropLast_concat] at hd
        exact hdirs d hd

theorem processJob_wf (enc : FPath → EncResult) (sr tr : FPath) (fs : FS) (e : SrcEntry)
    (hwf : fs.wf = true) : (processJob enc sr tr fs e).1.wf = true := by
  rcases hmk : mkdirChain fs (pathPrefixes (targetOf tr e).dropLast) with _ | fs1
  · simp only [processJob, hmk]; exact hwf
  · have hwf1 : fs1.wf = true := wf_mkdirChainPrefixes _ fs fs1 hwf hmk
    by_cases hex : fs1.entryExists (targetOf tr e) = true
    · simp only [processJob, hmk, if_pos hex]; exact hwf1
    · simp only [processJob, hmk, if_neg hex]
      rcases henc : enc (srcOf sr e) with _ | ⟨rc, out⟩
      · simp only [encodeStep, henc]; exact hwf1
      · rcases out with _ | c
        · simp only [encodeStep, henc, writeOut]; exact hwf1
        · simp only [encodeStep, henc, writeOut]
          have hex' : fs1.entryExists (targetOf tr e) = false :=
            Bool.eq_false_iff.mpr hex
          have hboth := Bool.or_eq_false_iff.mp (by simpa [FS.entryExists] using hex')
          exact wf_write c hwf1 (mkdirChain_isDir_of_mem _ _ _ hmk) hboth.2

end VideoAssets

namespace VideoAssets

theorem runJobs_len (enc : FPath → EncResult) (sr tr : FPath) :
    ∀ (js : List SrcEntry) (fs : FS), (runJobs enc sr tr fs js).2.length = js.length := by
  intro js
  induction js with
  | nil => intro fs; rfl
  | cons e es ih => intro fs; simp [runJobs, ih]

theorem runJobs_append (enc : FPath → EncResult) (sr tr : FPath) (l1 l2 : List SrcEntry) :
    ∀ fs : FS,
    (runJobs enc sr tr fs (l1 ++ l2)).1 =
      (runJobs enc sr tr (runJobs enc sr tr fs l1).1 l2).1 ∧
    (runJobs enc sr tr fs (l1 ++ l2)).2 =
      (runJobs enc sr tr fs l1).2 ++ (runJobs enc sr tr (runJobs enc sr tr fs l1).1 l2).2 := by
  induction l1 with
  | nil => intro fs; simp [runJobs]
  | cons e es ih =>
    intro fs
    simp only [List.cons_append, runJobs, List.cons_append]
    exact ⟨(ih _).1, congrArg _ ((ih _).2)⟩

theorem runJobs_get? (enc : FPath → EncResult) (sr tr : FPath) :
    ∀ (js : List SrcEntry) (fs : FS) (k : Nat),
    (runJobs enc sr tr fs js).2.get? k = stepView enc sr tr fs js k := by
  intro js
  induction js with
  | nil => intro fs k; simp [runJobs, stepView]
  | cons e es ih =>
    intro fs k
    cases k with
    | zero => simp [runJobs, stepView, runFS]
    | succ k =>
      have h1 : (runJobs enc sr tr fs (e :: es)).2.get? (k + 1) =
          (runJobs enc sr tr (processJob enc sr tr fs e).1 es).2.get? k := rfl
      rw [h1, ih ((processJob enc sr tr fs e).1) k]
      simp [stepView, runFS, runJobs, List.take_succ_cons]

theorem runJobs_isFile_mono (enc : FPath → EncResult) (sr tr : FPath) :
    ∀ (js : List SrcEntry) (fs : FS) (p : FPath), fs.isFile p = true →
    (runJobs enc sr tr fs js).1.isFile p = true := by
  intro js
  induction js with
  | nil => intro fs p h; exact h
  | cons e es ih =>
    intro fs p h
    exact ih _ p (processJob_isFile_mono enc sr tr fs e p h)

theorem runJobs_isDir_mono (enc : FPath → EncResult) (sr tr : FPath) :
    ∀ (js : List SrcEntry) (fs : FS) (p : FPath), fs.isDir p = true →
    (runJobs enc sr tr fs js).1.isDir p = true := by
  intro js
  induction js with
  | nil => intro fs p h; exact h
  | cons e es ih =>
    intro fs p h
    exact ih _ p (processJob_isDir_mono enc sr tr fs e p h)

theorem runJobs_isFile_guard (enc : FPath → EncResult) (sr tr : FPath) :
    ∀ (js : List SrcEntry) (fs : FS) (p : FPath), fs.isDir p = true →
    (runJobs enc sr tr fs js).1.isFile p = true → fs.isFile p = true := by
  intro js
  induction js with
  | nil => intro fs p _ h; exact h
  | cons e es ih =>
    intro fs p hd h
    have hd' : (processJob enc sr tr fs e).1.isDir p = true :=
      processJob_isDir_mono enc sr tr fs e p hd
    exact processJob_isFile_guard enc sr tr fs e p hd (ih _ p hd' h)

theorem runJobs_wf (enc : FPath → EncResult) (sr tr : FPath) :
    ∀ (js : List SrcEntry) (fs : FS), fs.wf = true →
    (runJobs enc sr tr fs js).1.wf = true := by
  intro js
  induction js with
  | nil => intro fs h; exact h
  | cons e es ih =>
    intro fs h
    exact ih _ (processJob_wf enc sr tr fs e h)

end VideoAssets

namespace VideoAssets

theorem stable_mkdir_noop (enc : FPath → EncResult) (sr tr : FPath) (fs0 fs1 : FS)
    (e : SrcEntry)
    (hmd : ∀ p, (processJob enc sr tr fs0 e).1.isDir p = true → fs1.isDir p = true)
    (hg : ∀ p, (processJob enc sr tr fs0 e).1.isDir p = true → fs1.isFile p = true →
      (processJob enc sr tr fs0 e).1.isFile p = true)
    (hfa_dir : ∀ d ∈ pathPrefixes (targetOf tr e).dropLast,
      (processJob enc sr tr fs0 e).1.isDir d = true)
    (hfa_file : ∀ d ∈ pathPrefixes (targetOf tr e).dropLast,
      (processJob enc sr tr fs0 e).1.isFile d = false) :
    mkdirChain fs1 (pathPrefixes (targetOf tr e).dropLast) = some fs1 := by
  apply mkdirChain_noop
  intro d hd
  refine ⟨hmd d (hfa_dir d hd), ?_⟩
  by_contra hcon
  have hf1 : fs1.isFile d = true := by simpa using hcon
  have hfa := hg d (hfa_dir d hd) hf1
  rw [hfa_file d hd] at hfa
  cases hfa

theorem processJob_stable (enc : FPath → EncResult) (sr tr : FPath) (fs0 fs1 : FS)
    (e : SrcEntry)
    (Henc : ∀ p, enc p ≠ EncResult.exit 0 none)
    (hmf : ∀ p, (processJob enc sr tr fs0 e).1.isFile p = true → fs1.isFile p = true)
    (hmd : ∀ p, (processJob enc sr tr fs0 e).1.isDir p = true → fs1.isDir p = true)
    (hg : ∀ p, (processJob enc sr tr fs0 e).1.isDir p = true → fs1.isFile p = true →
      (processJob enc sr tr fs0 e).1.isFile p = true) :
    (processJob enc sr tr fs1 e).1 = fs1 ∧
    (processJob enc sr tr fs1 e).2.outcome ≠ Outcome.converted ∧
    ((processJob enc sr tr fs0 e).2.outcome = Outcome.converted →
      (processJob enc sr tr fs1 e).2.outcome = Outcome.skipped) := by
  rcases hmk : mkdirChain fs0 (pathPrefixes (targetOf tr e).dropLast) with _ | fsm
  · have hfsa : (processJob enc sr tr fs0 e).1 = fs0 := by simp [processJob, hmk]
    have hoa : (processJob enc sr tr fs0 e).2.outcome = Outcome.failed := by
      simp [processJob, hmk]
    rcases (mkdirChain_eq_none_iff _ fs0).mp hmk with ⟨d, hd, hfd⟩
    have hfd1 : fs1.isFile d = true := hmf d (by rw [hfsa]; exact hfd)
    have hmk2 : mkdirChain fs1 (pathPrefixes (targetOf tr e).dropLast) = none :=
      (mkdirChain_eq_none_iff _ fs1).mpr ⟨d, hd, hfd1⟩
    refine ⟨by simp [processJob, hmk2], by simp [processJob, hmk2], ?_⟩
    intro hc; rw [hoa] at hc; cases hc
  · have hfm_isFile : ∀ q, fsm.isFile q = fs0.isFile q := mkdirChain_isFile _ _ _ hmk
    have hdirs : ∀ d ∈ pathPrefixes (targetOf tr e).dropLast, fsm.isDir d = true :=
      mkdirChain_isDir_of_mem _ _ _ hmk
    have hnofile : ∀ d ∈ pathPrefixes (targetOf tr e).dropLast, fs0.isFile d = false := by
      intro d hd
      by_contra hcon
      have hnone : mkdirChain fs0 (pathPrefixes (targetOf tr e).dropLast) = none :=
        (mkdirChain_eq_none_iff _ fs0).mpr ⟨d, hd, by simpa using hcon⟩
      rw [hmk] at hnone; cases hnone
    by_cases hex : fsm.entryExists (targetOf tr e) = true
    · have hfsa : (processJob enc sr tr fs0 e).1 = fsm := by simp [processJob, hmk, hex]
      have hmk2 := stable_mkdir_noop enc sr tr fs0 fs1 e hmd hg
        (by intro d hd; rw [hfsa]; exact hdirs d hd)
        (by intro d hd; rw [hfsa, hfm_isFile]; exact hnofile d hd)
      have hex2 : fs1.entryExists (targetOf tr e) = true := by
        rcases (entryExists_eq_true_iff fsm _).mp hex with hh | hh
        · exact (entryExists_eq_true_iff fs1 _).mpr
            (Or.inl (hmf _ (by rw [hfsa]; exact hh)))
        · exact (entryExists_eq_true_iff fs1 _).mpr
            (Or.inr (hmd _ (by rw [hfsa]; exact hh)))
      exact ⟨by simp [processJob, hmk2, hex2], by simp [processJob, hmk2, hex2],
        fun _ => by simp [processJob, hmk2, hex2]⟩
    · rcases henc : enc (srcOf sr e) with _ | ⟨rc, out⟩
      · have hfsa : (processJob enc sr tr fs0 e).1 = fsm := by
          simp [processJob, hmk, hex, encodeStep, henc]
        have hoa : (processJob enc sr tr fs0 e).2.outcome = Outcome.failed := by
          simp [processJob, hmk, hex, encodeStep, henc]
        have hmk2 := stable_mkdir_noop enc sr tr fs0 fs1 e hmd hg
          (by intro d hd; rw [hfsa]; exact hdirs d hd)
          (by intro d hd; rw [hfsa, hfm_isFile]; exact hnofile d hd)
        by_cases hex2 : fs1.entryExists (targetOf tr e) = true
        · exact ⟨by simp [processJob, hmk2, hex2], by simp [processJob, hmk2, hex2],
            fun hc => by rw [hoa] at hc; cases hc⟩
        · refine ⟨?_, ?_, fun hc => by rw [hoa] at hc; cases hc⟩
          · simp [processJob, hmk2, hex2, encodeStep, henc]
          · simp [processJob, hmk2, hex2, encodeStep, henc]
      · rcases out with _ | c
        · have hrc : ¬ rc = 0 := by
            intro hrc0
            exact Henc (srcOf sr e) (by rw [henc, hrc0])
          have hfsa : (processJob enc sr tr fs0 e).1 = fsm := by
            simp [processJob, hmk, hex, encodeStep, henc, writeOut]
          have hoa : (processJob enc sr tr fs0 e).2.outcome = Outcome.failed := by
            simp [processJob, hmk, hex, encodeStep, henc, hrc]
          have hmk2 := stable_mkdir_noop enc sr tr fs0 fs1 e hmd hg
            (by intro d hd; rw [hfsa]; exact hdirs d hd)
            (by intro d hd; rw [hfsa, hfm_isFile]; exact hnofile d hd)
          by_cases hex2 : fs1.entryExists (targetOf tr e) = true
          · exact ⟨by simp [processJob, hmk2, hex2], by simp [processJob, hmk2, hex2],
              fun hc => by rw [hoa] at hc; cases hc⟩
          · refine ⟨?_, ?_, fun hc => by rw [hoa] at hc; cases hc⟩
            · simp [processJob, hmk2, hex2, encodeStep, henc, writeOut]
            · simp [processJob, hmk2, hex2, encodeStep, henc, hrc]
        · have hfsa : (processJob enc sr tr fs0 e).1 = fsm.write (targetOf tr e) c := by
            simp [processJob, hmk, hex, encodeStep, henc, writeOut]
          have hftgt : (processJob enc sr tr fs0 e).1.isFile (targetOf tr e) = true := by
            rw [hfsa]; simp [isFile_write]
          have hf1tgt : fs1.isFile (targetOf tr e) = true := hmf _ hftgt
          have hex2 : fs1.entryExists (targetOf tr e) = true :=
            (entryExists_eq_true_iff fs1 _).mpr (Or.inl hf1tgt)
          have hmk2 := stable_mkdir_noop enc sr tr fs0 fs1 e hmd hg
            (by intro d hd; rw [hfsa, isDir_write]; exact hdirs d hd)
            (by
              intro d hd
              have hdne : d ≠ targetOf tr e :=
                ne_of_mem_pathPrefixes_dropLast (targetOf_ne_nil tr e) hd
              rw [hfsa, isFile_write, decide_eq_false (fun h => hdne h.symm)]
              simp [hfm_isFile, hnofile d hd])
          exact ⟨by simp [processJob, hmk2, hex2], by simp [processJob, hmk2, hex2],
            fun _ => by simp [processJob, hmk2, hex2]⟩

end VideoAssets

namespace VideoAssets

theorem runJobs_stable (enc : FPath → EncResult) (sr tr : FPath)
    (Henc : ∀ p, enc p ≠ EncResult.exit 0 none)
    (js : List SrcEntry) (fs0 : FS) (k : Nat) (e : SrcEntry)
    (hk : js.get? k = some e) :
    (processJob enc sr tr (runFS enc sr tr fs0 js) e).1 = runFS enc sr tr fs0 js ∧
    (processJob enc sr tr (runFS enc sr tr fs0 js) e).2.outcome ≠ Outcome.converted ∧
    (∀ st, stepView enc sr tr fs0 js k = some st → st.outcome = Outcome.converted →
      (processJob enc sr tr (runFS enc sr tr fs0 js) e).2.outcome = Outcome.skipped) := by
  rcases List.get?_eq_some.mp hk with ⟨hlt, hget⟩
  have hsplit : js = js.take k ++ e :: js.drop (k + 1) := by
    have h1 := List.take_append_drop k js
    rw [List.drop_eq_getElem_cons hlt] at h1
    have h2 : js[k] = e := by simpa using hget
    rw [h2] at h1
    exact h1.symm
  have heq : runFS enc sr tr fs0 js =
      runFS enc sr tr (processJob enc sr tr (runFS enc sr tr fs0 (js.take k)) e).1
        (js.drop (k + 1)) := by
    conv_lhs => rw [hsplit]
    show (runJobs enc sr tr fs0 (js.take k ++ e :: js.drop (k + 1))).1 = _
    rw [(runJobs_append enc sr tr (js.take k) (e :: js.drop (k + 1)) fs0).1]
    rfl
  have hmf : ∀ p,
      (processJob enc sr tr (runFS enc sr tr fs0 (js.take k)) e).1.isFile p = true →
      (runFS enc sr tr fs0 js).isFile p = true := by
    intro p hp
    rw [heq]
    exact runJobs_isFile_mono enc sr tr _ _ p hp
  have hmd : ∀ p,
      (processJob enc sr tr (runFS enc sr tr fs0 (js.take k)) e).1.isDir p = true →
      (runFS enc sr tr fs0 js).isDir p = true := by
    intro p hp
    rw [heq]
    exact runJobs_isDir_mono enc sr tr _ _ p hp
  have hgd : ∀ p,
      (processJob enc sr tr (runFS enc sr tr fs0 (js.take k)) e).1.isDir p = true →
      (runFS enc sr tr fs0 js).isFile p = true →
      (processJob enc sr tr (runFS enc sr tr fs0 (js.take k)) e).1.isFile p = true := by
    intro p hp hf
    rw [heq] at hf
    exact runJobs_isFile_guard enc sr tr _ _ p hp hf
  obtain ⟨c1, c2, c3⟩ := processJob_stable enc sr tr (runFS enc sr tr fs0 (js.take k))
    (runFS enc sr tr fs0 js) e Henc hmf hmd hgd
  refine ⟨c1, c2, ?_⟩
  intro st hst hc
  have hst' : st = (processJob enc sr tr (runFS enc sr tr fs0 (js.take k)) e).2 := by
    rw [stepView, hk] at hst
    exact (Option.some_inj.mp hst).symm
  exact c3 (by rw [← hst']; exact hc)

theorem runJobs_fix (enc : FPath → EncResult) (sr tr : FPath) :
    ∀ (js : List SrcEntry) (fs1 : FS),
    (∀ k e, js.get? k = some e → (processJob enc sr tr fs1 e).1 = fs1) →
    (runJobs enc sr tr fs1 js).1 = fs1 ∧
    (runJobs enc sr tr fs1 js).2 = js.map (fun e => (processJob enc sr tr fs1 e).2) := by
  intro js
  induction js with
  | nil => intro fs1 _; exact ⟨rfl, rfl⟩
  | cons e es ih =>
    intro fs1 h
    have h0 : (processJob enc sr tr fs1 e).1 = fs1 := h 0 e rfl
    have ih' := ih fs1 (fun k e' hk => h (k + 1) e' (by simpa using hk))
    constructor
    · show (runJobs enc sr tr (processJob enc sr tr fs1 e).1 es).1 = fs1
      rw [h0]
      exact ih'.1
    · show (processJob enc sr tr fs1 e).2 ::
        (runJobs enc sr tr (processJob enc sr tr fs1 e).1 es).2 = _
      rw [h0, ih'.2]
      rfl

end VideoAssets

namespace VideoAssets

theorem count_eq_one_of_get? {α : Type} [DecidableEq α] (x : α) :
    ∀ (l : List α) (k : Nat), l.get? k = some x →
    (∀ j, j < l.length → j ≠ k → l.get? j ≠ some x) → l.count x = 1 := by
  intro l
  induction l with
  | nil => intro k hk _; simp at hk
  | cons a t ih =>
    intro k hk h2
    cases k with
    | zero =>
      have ha : a = x := by simpa using hk
      subst ha
      rw [List.count_cons_self]
      have ht : t.count a = 0 := by
        rw [List.count_eq_zero]
        intro hmem
        rcases List.get?_of_mem hmem with ⟨j, hj⟩
        have hjlen : j < t.length := (List.get?_eq_some.mp hj).1
        exact h2 (j + 1) (by simpa using Nat.succ_lt_succ hjlen) (by simp)
          (by simpa using hj)
      rw [ht]
    | succ k =>
      have ha : a ≠ x := by
        intro hax
        exact h2 0 (by simp) (by simp) (by simpa using congrArg some hax)
      rw [List.count_cons_of_ne (Ne.symm ha)]
      refine ih k (by simpa using hk) ?_
      intro j hj hjk
      have := h2 (j + 1) (by simpa using Nat.succ_lt_succ hj) (by simpa using hjk)
      simpa using this

end VideoAssets

namespace VideoAssets

/-- Claim C1, counterexample: on a platform whose glob matching is
case-sensitive (POSIX pathlib flavour), the source tree a.vp6, b.VP6,
c.txt, d.mov does not yield the two jobs the claim requires: b.VP6 is not
discovered by rglob("*.vp6"), so discovery is not unconditionally
case-insensitive. -/
theorem C1_counterexample :
    (discover false
        [⟨[], "a.vp6"⟩, ⟨[], "b.VP6"⟩, ⟨[], "c.txt"⟩, ⟨[], "d.mov"⟩]).map SrcEntry.name
      = ["a.vp6"] ∧
    ((discover false
        [⟨[], "a.vp6"⟩, ⟨[], "b.VP6"⟩, ⟨[], "c.txt"⟩, ⟨[], "d.mov"⟩]).length = 2
      → False) := by
  constructor
  · decide
  · decide

/-- Claim C1, amended: a file below the source root is discovered as a job
iff its name matches the glob pattern *.vp6 under the platform's case
convention (case-insensitively on Windows, where fnmatch lowercases both
sides; exact-case on POSIX), each matching file appearing exactly once in
traversal order; on a case-insensitive platform the example tree yields
exactly the jobs a.vp6 and b.VP6, on a case-sensitive one only a.vp6. -/
theorem C1_amended (ci : Bool) (entries : List SrcEntry) (e : SrcEntry) :
    (e ∈ discover ci entries ↔ e ∈ entries ∧ matchesVp6 ci e.name = true) ∧
    (discover true
        [⟨[], "a.vp6"⟩, ⟨[], "b.VP6"⟩, ⟨[], "c.txt"⟩, ⟨[], "d.mov"⟩]).map SrcEntry.name
      = ["a.vp6", "b.VP6"] ∧
    (discover false
        [⟨[], "a.vp6"⟩, ⟨[], "b.VP6"⟩, ⟨[], "c.txt"⟩, ⟨[], "d.mov"⟩]).map SrcEntry.name
      = ["a.vp6"] := by
  refine ⟨?_, by decide, by decide⟩
  simp [discover, List.mem_filter]

/-- Claim C2, code evaluation at the failing input: for a source file
named a.b.vp6 the loop computes the target name a.ogv rather than the
claimed a.b.ogv — Path(stem).with_suffix(".ogv") replaces the stem's own
suffix .b instead of appending — so an earlier dot in the file name is
not preserved, and a.b.vp6 collides with a.vp6 in the same directory. -/
theorem C2_eval :
    ogvName "a.b.vp6" = "a.ogv" ∧
    ogvName "a.b.vp6" ≠ "a.b.ogv" ∧
    ogvName "a.vp6" = "a.ogv" ∧
    targetOf ["out"] ⟨["sub"], "a.b.vp6"⟩ = targetOf ["out"] ⟨["sub"], "a.vp6"⟩ ∧
    ogvName "movie.vp6" = "movie.ogv" := by
  refine ⟨by decide, by decide, by decide, by decide, by decide⟩

/-- Claim C3: failure isolation.  The loop records exactly one step per
job and never aborts: the list of outcomes has one entry per discovered
job, positionally (the k-th outcome is computed by the k-th job's loop
body from the state the previous jobs left), and when the k-th job's body
fails (encoder exits non-zero, fails to launch, or the mkdir raises)
while no other job's body fails, the run records exactly one Failed
outcome. -/
theorem C3_failure_isolation (enc : FPath → EncResult) (sr tr : FPath) (fs0 : FS)
    (jobs : List SrcEntry) (k : Nat)
    (h1 : (stepView enc sr tr fs0 jobs k).map Step.outcome = some Outcome.failed)
    (h2 : ∀ j, j < jobs.length → j ≠ k →
      (stepView enc sr tr fs0 jobs j).map Step.outcome ≠ some Outcome.failed) :
    (runSteps enc sr tr fs0 jobs).length = jobs.length ∧
    (∀ j, (runSteps enc sr tr fs0 jobs).get? j = stepView enc sr tr fs0 jobs j) ∧
    ((runSteps enc sr tr fs0 jobs).map Step.outcome).count Outcome.failed = 1 := by
  have hlen : (runSteps enc sr tr fs0 jobs).length = jobs.length :=
    runJobs_len enc sr tr jobs fs0
  have hpos : ∀ j, (runSteps enc sr tr fs0 jobs).get? j = stepView enc sr tr fs0 jobs j :=
    fun j => runJobs_get? enc sr tr jobs fs0 j
  refine ⟨hlen, hpos, ?_⟩
  apply count_eq_one_of_get? Outcome.failed _ k
  · rw [List.get?_map, hpos k]
    exact h1
  · intro j hj hjk
    rw [List.get?_map, hpos j]
    exact h2 j (by rwa [List.length_map, hlen] at hj) hjk

/-- Witness for C3 at a concrete three-job run whose middle job makes the
encoder exit non-zero while the other two convert. -/
theorem C3_witness :
    (runSteps (fun p => if p = ["s", "b.vp6"] then EncResult.exit 1 none
        else EncResult.exit 0 (some 3)) ["s"] ["t"] ⟨[], []⟩
      [⟨[], "a.vp6"⟩, ⟨[], "b.vp6"⟩, ⟨[], "c.vp6"⟩]).length =
      ([⟨[], "a.vp6"⟩, ⟨[], "b.vp6"⟩, ⟨[], "c.vp6"⟩] : List SrcEntry).length ∧
    (∀ j, (runSteps (fun p => if p = ["s", "b.vp6"] then EncResult.exit 1 none
        else EncResult.exit 0 (some 3)) ["s"] ["t"] ⟨[], []⟩
      [⟨[], "a.vp6"⟩, ⟨[], "b.vp6"⟩, ⟨[], "c.vp6"⟩]).get? j =
      stepView (fun p => if p = ["s", "b.vp6"] then EncResult.exit 1 none
        else EncResult.exit 0 (some 3)) ["s"] ["t"] ⟨[], []⟩
        [⟨[], "a.vp6"⟩, ⟨[], "b.vp6"⟩, ⟨[], "c.vp6"⟩] j) ∧
    ((runSteps (fun p => if p = ["s", "b.vp6"] then EncResult.exit 1 none
        else EncResult.exit 0 (some 3)) ["s"] ["t"] ⟨[], []⟩
      [⟨[], "a.vp6"⟩, ⟨[], "b.vp6"⟩, ⟨[], "c.vp6"⟩]).map Step.outcome).count
      Outcome.failed = 1 :=
  C3_failure_isolation
    (fun p => if p = ["s", "b.vp6"] then EncResult.exit 1 none
      else EncResult.exit 0 (some 3)) ["s"] ["t"] ⟨[], []⟩
    [⟨[], "a.vp6"⟩, ⟨[], "b.vp6"⟩, ⟨[], "c.vp6"⟩] 1 (by decide)
    (by decide)

end VideoAssets

namespace VideoAssets

/-- Claim C4, code evaluation: a missing source directory does exit with
status 1 (sys.exit(1) raises SystemExit, which run.py's except Exception
does not catch); but when the encoder cannot be resolved, find_ffmpeg
calls the undefined print_warning and raises NameError, run.py catches it
and the script finishes normally, so the process exits 0 — not non-zero
as claimed; and a completed run containing a Failed job also exits 0, so
the exit status never reflects per-job failures. -/
theorem C4_eval :
    processExit (mainDriver ⟨false, false, false, false, false⟩ false true
      [⟨[], "v.vp6"⟩] (fun _ => EncResult.exit 1 none) ["s"] ["t"]
      ⟨[], []⟩).exitKind = 1 ∧
    (mainDriver ⟨false, false, false, false, false⟩ true true [⟨[], "v.vp6"⟩]
      (fun _ => EncResult.exit 1 none) ["s"] ["t"] ⟨[], []⟩).exitKind =
      ExitKind.raised ∧
    (mainDriver ⟨false, false, false, false, false⟩ true true [⟨[], "v.vp6"⟩]
      (fun _ => EncResult.exit 1 none) ["s"] ["t"] ⟨[], []⟩).steps = [] ∧
    processExit (mainDriver ⟨false, false, false, false, false⟩ true true
      [⟨[], "v.vp6"⟩] (fun _ => EncResult.exit 1 none) ["s"] ["t"]
      ⟨[], []⟩).exitKind = 0 ∧
    ((mainDriver ⟨true, true, false, false, false⟩ true true [⟨[], "v.vp6"⟩]
      (fun _ => EncResult.exit 1 none) ["s"] ["t"] ⟨[], []⟩).steps).map Step.outcome
      = [Outcome.failed] ∧
    processExit (mainDriver ⟨true, true, false, false, false⟩ true true
      [⟨[], "v.vp6"⟩] (fun _ => EncResult.exit 1 none) ["s"] ["t"]
      ⟨[], []⟩).exitKind = 0 := by
  refine ⟨by decide, by decide, by decide, by decide, by decide, by decide⟩

/-- Claim C5: when the source root is not an existing directory, Main.main
calls sys.exit(1) before encoder resolution, discovery or the loop: the
run produces no job step, invokes no encoder child process, computes and
creates nothing under the target root (the filesystem is returned
untouched), and the process exit status is the non-zero 1. -/
theorem C5_missing_source_fatal (ffenv : FFEnv) (ci : Bool) (entries : List SrcEntry)
    (enc : FPath → EncResult) (sr tr : FPath) (fs0 : FS) :
    mainDriver ffenv false ci entries enc sr tr fs0 =
      ⟨ExitKind.sysExit 1, fs0, [], false, false⟩ ∧
    processExit (mainDriver ffenv false ci entries enc sr tr fs0).exitKind = 1 := by
  constructor
  · rfl
  · rfl

/-- Claim C6, code evaluation: the resolution chain is attempted in order
with the first success winning, but exhaustion never yields the fatal
non-zero exit the claim requires: with every strategy failing,
find_ffmpeg reaches the except branch, calls the undefined print_warning
and raises NameError; find_ffmpeg can never return None, so main's
sys.exit(1) guard is dead code, run.py swallows the NameError and the
process exits 0 with no job processed.  An absolute configured path that
is not a file likewise raises instead of falling through to the
remaining strategies. -/
theorem C6_eval :
    find_ffmpeg ⟨false, false, false, false, false⟩ = Except.error () ∧
    find_ffmpeg ⟨true, false, true, true, true⟩ = Except.error () ∧
    (∀ env : FFEnv, find_ffmpeg env ≠ Except.ok none) ∧
    (mainDriver ⟨false, false, false, false, false⟩ true false [⟨["m"], "w.vp6"⟩]
      (fun _ => EncResult.exit 0 (some 1)) ["sr"] ["tr"] ⟨[], []⟩).steps = [] ∧
    (mainDriver ⟨false, false, false, false, false⟩ true false [⟨["m"], "w.vp6"⟩]
      (fun _ => EncResult.exit 0 (some 1)) ["sr"] ["tr"] ⟨[], []⟩).exitKind =
      ExitKind.raised ∧
    processExit (mainDriver ⟨false, false, false, false, false⟩ true false
      [⟨["m"], "w.vp6"⟩] (fun _ => EncResult.exit 0 (some 1)) ["sr"] ["tr"]
      ⟨[], []⟩).exitKind = 0 := by
  refine ⟨rfl, rfl, ?_, by decide, by decide, by decide⟩
  intro env
  rcases env with ⟨a, b, c, d, w⟩
  cases a <;> cases b <;> cases c <;> cases d <;> cases w <;> simp [find_ffmpeg]

end VideoAssets

namespace VideoAssets

/-- Claim C7: idempotence of a second run.  With the encoder modelled as a
deterministic oracle (same source tree, no intervening changes, so each
input gets the same child-process behaviour in both runs) that writes its
output file whenever it exits 0, running the loop a second time from the
state the first run left leaves the target filesystem byte-identical
(literally unchanged), records zero Converted outcomes, and every job
Converted by the first run is Skipped by the second. -/
theorem C7_second_run_idempotent (enc : FPath → EncResult) (sr tr : FPath)
    (fs0 : FS) (jobs : List SrcEntry)
    (Henc : ∀ p, enc p ≠ EncResult.exit 0 none) :
    runFS enc sr tr (runFS enc sr tr fs0 jobs) jobs = runFS enc sr tr fs0 jobs ∧
    ((runSteps enc sr tr (runFS enc sr tr fs0 jobs) jobs).map Step.outcome).count
      Outcome.converted = 0 ∧
    (∀ k st1 st2, (runSteps enc sr tr fs0 jobs).get? k = some st1 →
      (runSteps enc sr tr (runFS enc sr tr fs0 jobs) jobs).get? k = some st2 →
      st1.outcome = Outcome.converted → st2.outcome = Outcome.skipped) := by
  have hfix : ∀ k e, jobs.get? k = some e →
      (processJob enc sr tr (runFS enc sr tr fs0 jobs) e).1 = runFS enc sr tr fs0 jobs :=
    fun k e hk => (runJobs_stable enc sr tr Henc jobs fs0 k e hk).1
  obtain ⟨hfs, hsteps⟩ := runJobs_fix enc sr tr jobs (runFS enc sr tr fs0 jobs) hfix
  have hsteps' : runSteps enc sr tr (runFS enc sr tr fs0 jobs) jobs =
      jobs.map (fun e => (processJob enc sr tr (runFS enc sr tr fs0 jobs) e).2) := hsteps
  refine ⟨hfs, ?_, ?_⟩
  · rw [hsteps', List.count_eq_zero, List.map_map]
    intro hmem
    rcases List.mem_map.mp hmem with ⟨e, he, hoe⟩
    rcases List.get?_of_mem he with ⟨k, hk⟩
    exact (runJobs_stable enc sr tr Henc jobs fs0 k e hk).2.1 hoe
  · intro k st1 st2 h1 h2 hc
    rw [hsteps', List.get?_map] at h2
    rcases hk : jobs.get? k with _ | e
    · rw [hk] at h2; cases h2
    · rw [hk] at h2
      have h2' : (processJob enc sr tr (runFS enc sr tr fs0 jobs) e).2 = st2 :=
        Option.some_inj.mp h2
      have h1' : stepView enc sr tr fs0 jobs k = some st1 := by
        rw [← runJobs_get?]
        exact h1
      have hsk := (runJobs_stable enc sr tr Henc jobs fs0 k e hk).2.2 st1 h1' hc
      rw [← h2']
      exact hsk

/-- Witness for C7 at a concrete one-job run whose encoder converts on
the first run: the second run changes nothing and skips the job. -/
theorem C7_witness :
    runFS (fun _ => EncResult.exit 0 (some 7)) ["s2"] ["t2"]
      (runFS (fun _ => EncResult.exit 0 (some 7)) ["s2"] ["t2"] ⟨[], []⟩
        [⟨[], "w.vp6"⟩]) [⟨[], "w.vp6"⟩] =
      runFS (fun _ => EncResult.exit 0 (some 7)) ["s2"] ["t2"] ⟨[], []⟩
        [⟨[], "w.vp6"⟩] ∧
    ((runSteps (fun _ => EncResult.exit 0 (some 7)) ["s2"] ["t2"]
      (runFS (fun _ => EncResult.exit 0 (some 7)) ["s2"] ["t2"] ⟨[], []⟩
        [⟨[], "w.vp6"⟩]) [⟨[], "w.vp6"⟩]).map Step.outcome).count
      Outcome.converted = 0 ∧
    (∀ k st1 st2, (runSteps (fun _ => EncResult.exit 0 (some 7)) ["s2"] ["t2"] ⟨[], []⟩
        [⟨[], "w.vp6"⟩]).get? k = some st1 →
      (runSteps (fun _ => EncResult.exit 0 (some 7)) ["s2"] ["t2"]
        (runFS (fun _ => EncResult.exit 0 (some 7)) ["s2"] ["t2"] ⟨[], []⟩
          [⟨[], "w.vp6"⟩]) [⟨[], "w.vp6"⟩]).get? k = some st2 →
      st1.outcome = Outcome.converted → st2.outcome = Outcome.skipped) :=
  C7_second_run_idempotent (fun _ => EncResult.exit 0 (some 7)) ["s2"] ["t2"]
    ⟨[], []⟩ [⟨[], "w.vp6"⟩] (fun p h => by simp at h)

end VideoAssets

namespace VideoAssets

theorem wf_prefixes_ok {fs : FS} {tgt : FPath} (hwf : fs.wf = true)
    (hex : fs.entryExists tgt = true) :
    ∀ d ∈ pathPrefixes tgt.dropLast, fs.isDir d = true ∧ fs.isFile d = false := by
  intro d hd
  have hdir : fs.isDir d = true := by
    rcases (entryExists_eq_true_iff fs tgt).mp hex with hh | hh
    · exact wf_file_prefix hwf hh d hd
    · exact wf_dir_prefix hwf hh d hd
  refine ⟨hdir, ?_⟩
  by_contra hcon
  exact wf_not_both hwf (by simpa using hcon) hdir

theorem mkdirChain_entryExists_iff (fs fs1 : FS) (tgt : FPath)
    (hmk : mkdirChain fs (pathPrefixes tgt.dropLast) = some fs1) (hne : tgt ≠ []) :
    fs1.entryExists tgt = true ↔ fs.entryExists tgt = true := by
  have hfs1file : ∀ q, fs1.isFile q = fs.isFile q := mkdirChain_isFile _ _ _ hmk
  constructor
  · intro h
    rcases (entryExists_eq_true_iff fs1 _).mp h with hh | hh
    · rw [hfs1file] at hh
      exact (entryExists_eq_true_iff fs _).mpr (Or.inl hh)
    · rcases mkdirChain_isDir_src _ _ _ hmk _ hh with hh' | hh'
      · exact (entryExists_eq_true_iff fs _).mpr (Or.inr hh')
      · exact absurd rfl (ne_of_mem_pathPrefixes_dropLast hne hh')
  · intro h
    rcases (entryExists_eq_true_iff fs _).mp h with hh | hh
    · exact (entryExists_eq_true_iff fs1 _).mpr (Or.inl (by rw [hfs1file]; exact hh))
    · exact (entryExists_eq_true_iff fs1 _).mpr
        (Or.inr (mkdirChain_isDir_mono _ _ _ hmk _ hh))

/-- Claim C8, counterexample: the skip check of the loop is
ogv_file.exists(), which is true for a directory too: with a directory at
the computed target path, the job is skipped without invoking the
encoder, contradicting the claim that only a regular file at the target
path causes a skip. -/
theorem C8_counterexample :
    (processJob (fun _ => EncResult.exit 0 (some 5)) ["s"] ["t"]
      ⟨[], [["t"], ["t", "a.ogv"]]⟩ ⟨[], "a.vp6"⟩).2.outcome = Outcome.skipped ∧
    FS.isDir ⟨[], [["t"], ["t", "a.ogv"]]⟩ ["t", "a.ogv"] = true ∧
    FS.isFile ⟨[], [["t"], ["t", "a.ogv"]]⟩ ["t", "a.ogv"] = false := by
  refine ⟨by decide, by decide, by decide⟩

/-- Claim C8, amended: on a well-formed filesystem a discovered job is
skipped iff its computed target path already exists as any filesystem
entry — regular file or directory — and a skipped job never reaches the
encoder invocation. -/
theorem C8_skip_iff_target_exists (enc : FPath → EncResult) (sr tr : FPath)
    (fs : FS) (e : SrcEntry) (hwf : fs.wf = true) :
    ((processJob enc sr tr fs e).2.outcome = Outcome.skipped ↔
      fs.entryExists (targetOf tr e) = true) ∧
    ((processJob enc sr tr fs e).2.outcome = Outcome.skipped →
      (processJob enc sr tr fs e).2.invoked = false) := by
  rcases hmk : mkdirChain fs (pathPrefixes (targetOf tr e).dropLast) with _ | fs1
  · have hout : (processJob enc sr tr fs e).2 = ⟨Outcome.failed, false⟩ := by
      simp [processJob, hmk]
    rw [hout]
    constructor
    · constructor
      · intro h; cases h
      · intro hex
        exfalso
        have hnoop := mkdirChain_noop _ fs (wf_prefixes_ok hwf hex)
        rw [hmk] at hnoop
        cases hnoop
    · intro h; cases h
  · have hexiff := mkdirChain_entryExists_iff fs fs1 (targetOf tr e) hmk
      (targetOf_ne_nil tr e)
    by_cases hex1 : fs1.entryExists (targetOf tr e) = true
    · have hout : (processJob enc sr tr fs e).2 = ⟨Outcome.skipped, false⟩ := by
        simp [processJob, hmk, hex1]
      rw [hout]
      exact ⟨⟨fun _ => hexiff.mp hex1, fun _ => rfl⟩, fun _ => rfl⟩
    · have hne : (processJob enc sr tr fs e).2.outcome ≠ Outcome.skipped := by
        simp only [processJob, hmk, if_neg hex1]
        rcases henc : enc (srcOf sr e) with _ | ⟨rc, out⟩
        · simp [encodeStep, henc]
        · by_cases hrc : rc = 0 <;> simp [encodeStep, henc, hrc]
      refine ⟨⟨fun h => absurd h hne, fun hex' => absurd (hexiff.mpr hex') hex1⟩,
        fun h => absurd h hne⟩

/-- Witness for the amended C8 at a concrete well-formed filesystem whose
target path is occupied by a regular file. -/
theorem C8_witness :
    ((processJob (fun _ => EncResult.raise) ["sw"] ["tw"]
        ⟨[(["tw", "x.ogv"], 4)], [["tw"]]⟩ ⟨[], "x.vp6"⟩).2.outcome =
        Outcome.skipped ↔
      FS.entryExists ⟨[(["tw", "x.ogv"], 4)], [["tw"]]⟩
        (targetOf ["tw"] ⟨[], "x.vp6"⟩) = true) ∧
    ((processJob (fun _ => EncResult.raise) ["sw"] ["tw"]
        ⟨[(["tw", "x.ogv"], 4)], [["tw"]]⟩ ⟨[], "x.vp6"⟩).2.outcome =
        Outcome.skipped →
      (processJob (fun _ => EncResult.raise) ["sw"] ["tw"]
        ⟨[(["tw", "x.ogv"], 4)], [["tw"]]⟩ ⟨[], "x.vp6"⟩).2.invoked = false) :=
  C8_skip_iff_target_exists (fun _ => EncResult.raise) ["sw"] ["tw"]
    ⟨[(["tw", "x.ogv"], 4)], [["tw"]]⟩ ⟨[], "x.vp6"⟩ (by decide)

theorem processJob_uninvoked_frame (enc : FPath → EncResult) (sr tr : FPath)
    (fsb : FS) (e : SrcEntry) (hwf : fsb.wf = true) :
    ((processJob enc sr tr fsb e).2.invoked = false →
      (processJob enc sr tr fsb e).1 = fsb) ∧
    (∀ d, (processJob enc sr tr fsb e).1.isDir d = true →
      fsb.isDir d = true ∨ d ∈ pathPrefixes (targetOf tr e).dropLast) := by
  rcases hmk : mkdirChain fsb (pathPrefixes (targetOf tr e).dropLast) with _ | fs1
  · constructor
    · intro _; simp [processJob, hmk]
    · intro d hd
      left
      simpa [processJob, hmk] using hd
  · have hdirssrc : ∀ d, fs1.isDir d = true →
        fsb.isDir d = true ∨ d ∈ pathPrefixes (targetOf tr e).dropLast :=
      fun d hd => mkdirChain_isDir_src _ _ _ hmk d hd
    by_cases hex1 : fs1.entryExists (targetOf tr e) = true
    · have hexb : fsb.entryExists (targetOf tr e) = true :=
        (mkdirChain_entryExists_iff fsb fs1 (targetOf tr e) hmk
          (targetOf_ne_nil tr e)).mp hex1
      have hnoop := mkdirChain_noop _ fsb (wf_prefixes_ok hwf hexb)
      rw [hmk] at hnoop
      have hfs1 : fs1 = fsb := Option.some_inj.mp hnoop
      constructor
      · intro _
        simp [processJob, hmk, hex1, hfs1, hexb]
      · intro d hd
        simp only [processJob, hmk, if_pos hex1] at hd
        exact hdirssrc d hd
    · constructor
      · intro hinv
        exfalso
        simp only [processJob, hmk, if_neg hex1] at hinv
        rcases henc : enc (srcOf sr e) with _ | ⟨rc, out⟩
        · simp [encodeStep, henc] at hinv
        · simp [encodeStep, henc] at hinv
      · intro d hd
        simp only [processJob, hmk, if_neg hex1] at hd
        rcases henc : enc (srcOf sr e) with _ | ⟨rc, out⟩
        · simp only [encodeStep, henc] at hd
          exact hdirssrc d hd
        · rcases out with _ | c
          · simp only [encodeStep, henc, writeOut] at hd
            exact hdirssrc d hd
          · simp only [encodeStep, henc, writeOut, isDir_write] at hd
            exact hdirssrc d hd

/-- Claim C9: directory creation is scoped to the job's own loop
iteration.  Starting from a well-formed filesystem, the step of the k-th
discovered job creates at most the ancestor directories of its own target
path (never directories for other jobs, so nothing is created eagerly up
front), and when the encoder subprocess call is not reached for that job
(skip or mkdir failure) the step leaves the filesystem — in particular
its directories — completely unchanged.  A launch attempt that raises
counts as a reached invocation. -/
theorem C9_scoped_dir_creation (enc : FPath → EncResult) (sr tr : FPath)
    (fs0 : FS) (jobs : List SrcEntry) (k : Nat) (e : SrcEntry)
    (hwf : fs0.wf = true) (hk : jobs.get? k = some e) :
    ((processJob enc sr tr (runFS enc sr tr fs0 (jobs.take k)) e).2.invoked = false →
      (processJob enc sr tr (runFS enc sr tr fs0 (jobs.take k)) e).1 =
        runFS enc sr tr fs0 (jobs.take k)) ∧
    (∀ d, (processJob enc sr tr (runFS enc sr tr fs0 (jobs.take k)) e).1.isDir d = true →
      (runFS enc sr tr fs0 (jobs.take k)).isDir d = true ∨
        d ∈ pathPrefixes (targetOf tr e).dropLast) :=
  processJob_uninvoked_frame enc sr tr (runFS enc sr tr fs0 (jobs.take k)) e
    (runJobs_wf enc sr tr (jobs.take k) fs0 hwf)

/-- Witness for C9 at a concrete run: first job of a one-job list over an
empty well-formed filesystem. -/
theorem C9_witness :
    ((processJob (fun _ => EncResult.exit 0 (some 9)) ["s9"] ["t9"]
        (runFS (fun _ => EncResult.exit 0 (some 9)) ["s9"] ["t9"] ⟨[], []⟩
          ([⟨[], "z.vp6"⟩].take 0)) ⟨[], "z.vp6"⟩).2.invoked = false →
      (processJob (fun _ => EncResult.exit 0 (some 9)) ["s9"] ["t9"]
        (runFS (fun _ => EncResult.exit 0 (some 9)) ["s9"] ["t9"] ⟨[], []⟩
          ([⟨[], "z.vp6"⟩].take 0)) ⟨[], "z.vp6"⟩).1 =
        runFS (fun _ => EncResult.exit 0 (some 9)) ["s9"] ["t9"] ⟨[], []⟩
          ([⟨[], "z.vp6"⟩].take 0)) ∧
    (∀ d, (processJob (fun _ => EncResult.exit 0 (some 9)) ["s9"] ["t9"]
        (runFS (fun _ => EncResult.exit 0 (some 9)) ["s9"] ["t9"] ⟨[], []⟩
          ([⟨[], "z.vp6"⟩].take 0)) ⟨[], "z.vp6"⟩).1.isDir d = true →
      (runFS (fun _ => EncResult.exit 0 (some 9)) ["s9"] ["t9"] ⟨[], []⟩
          ([⟨[], "z.vp6"⟩].take 0)).isDir d = true ∨
        d ∈ pathPrefixes (targetOf ["t9"] ⟨[], "z.vp6"⟩).dropLast) :=
  C9_scoped_dir_creation (fun _ => EncResult.exit 0 (some 9)) ["s9"] ["t9"]
    ⟨[], []⟩ [⟨[], "z.vp6"⟩] 0 ⟨[], "z.vp6"⟩ (by decide) (by decide)

/-- Claim C10: when discovery finds no .vp6 file, main prints the
"no files found" message and returns before the loop: no encoder
invocation, no step record, the filesystem is untouched (the target root
and its subdirectories are not created), the per-run error/success
summary is not printed, and the process exits successfully (status 0). -/
theorem C10_no_files (ffenv : FFEnv) (st : Strategy) (ci : Bool)
    (entries : List SrcEntry) (enc : FPath → EncResult) (sr tr : FPath) (fs0 : FS)
    (hres : find_ffmpeg ffenv = Except.ok (some st))
    (hempty : discover ci entries = []) :
    mainDriver ffenv true ci entries enc sr tr fs0 =
      ⟨ExitKind.normal, fs0, [], true, false⟩ ∧
    processExit (mainDriver ffenv true ci entries enc sr tr fs0).exitKind = 0 := by
  have h1 : mainDriver ffenv true ci entries enc sr tr fs0 =
      ⟨ExitKind.normal, fs0, [], true, false⟩ := by
    simp [mainDriver, hres, hempty]
  refine ⟨h1, ?_⟩
  rw [h1]
  rfl

/-- Witness for C10 at a concrete source tree with no .vp6 file. -/
theorem C10_witness :
    mainDriver ⟨true, true, false, false, false⟩ true false [⟨[], "note.txt"⟩]
      (fun _ => EncResult.raise) ["s1"] ["t1"] ⟨[], []⟩ =
      ⟨ExitKind.normal, ⟨[], []⟩, [], true, false⟩ ∧
    processExit (mainDriver ⟨true, true, false, false, false⟩ true false
      [⟨[], "note.txt"⟩] (fun _ => EncResult.raise) ["s1"] ["t1"]
      ⟨[], []⟩).exitKind = 0 :=
  C10_no_files ⟨true, true, false, false, false⟩ Strategy.absolute false
    [⟨[], "note.txt"⟩] (fun _ => EncResult.raise) ["s1"] ["t1"] ⟨[], []⟩
    rfl (by decide)

end VideoAssets
